import Mathlib

/-!
Verification of the text-to-speech pipeline in `buch_app.py`.

The embedding models Python strings as `List Char`.  `isSpace` embeds the
character class matched by Python's `\s` for `str` patterns (and used by
`str.split()`): ASCII whitespace, the file/group/record/unit separators,
NEL, and the Unicode space characters.
-/
def isSpace (c : Char) : Bool :=
  let n := c.toNat
  (9 ≤ n && n ≤ 13) || (28 ≤ n && n ≤ 31) || n == 32 || n == 133 || n == 160 ||
    n == 5760 || (8192 ≤ n && n ≤ 8202) || n == 8232 || n == 8233 ||
    n == 8239 || n == 8287 || n == 12288

/--
`re.split(r'(\s+)', text)`: split `text` on maximal whitespace runs,
keeping the captured separators.  The result alternates (possibly empty)
non-whitespace pieces with the (nonempty) whitespace runs between them.
The recursion consumes at least one character of the remaining string per
step, so `fuel = length + 1` suffices; a fuel parameter keeps the
definition structurally recursive (hence kernel-computable).
-/
def reSplitWsF : Nat → List Char → List (List Char)
  | 0, _ => []
  | fuel + 1, s =>
    let rest := s.dropWhile (fun c => !isSpace c)
    match rest with
    | [] => [s.takeWhile (fun c => !isSpace c)]
    | _ :: _ =>
      s.takeWhile (fun c => !isSpace c) :: rest.takeWhile isSpace ::
        reSplitWsF fuel (rest.dropWhile isSpace)

def reSplitWs (s : List Char) : List (List Char) :=
  reSplitWsF (s.length + 1) s

/--
`text.split()`: the maximal nonempty runs of non-whitespace characters,
as used by `estimate_price_and_duration` for the word count.
-/
def splitWsF : Nat → List Char → List (List Char)
  | 0, _ => []
  | fuel + 1, s =>
    let s1 := s.dropWhile isSpace
    match s1 with
    | [] => []
    | _ :: _ =>
      s1.takeWhile (fun c => !isSpace c) ::
        splitWsF fuel (s1.dropWhile (fun c => !isSpace c))

def splitWs (s : List Char) : List (List Char) :=
  splitWsF (s.length + 1) s

/-- `MAX_CHARS = 4096` from `buch_app.py`. -/
def MAX_CHARS : Nat := 4096

/--
The loop of `chunk_text`: greedily accumulate tokens into `cur`
(`current_chunk`); when appending the next token would exceed
`maxLength`, emit `cur` and restart from that token.  At the end the
final `cur` is emitted only if nonempty (Python truthiness test).
-/
def chunkGo (maxLength : Nat) : List (List Char) → List Char → List (List Char)
  | [], cur => if cur = [] then [] else [cur]
  | t :: ts, cur =>
    if cur.length + t.length ≤ maxLength then chunkGo maxLength ts (cur ++ t)
    else cur :: chunkGo maxLength ts t

/-- `chunk_text(text, max_length)` from `buch_app.py`. -/
def chunk_text (text : List Char) (maxLength : Nat) : List (List Char) :=
  chunkGo maxLength (reSplitWs text) []

/--
`re.sub(r'(?<!\n)\n(?!\n)', ' ', text)` from `fix_line_breaks`: scan the
text left to right carrying the ORIGINAL previous character (`prev`,
`none` at the very start).  A `'\n'` is replaced by `' '` exactly when
the negative lookbehind succeeds (the previous original character is not
a `'\n'`; vacuously at the start) and the negative lookahead succeeds
(the next character is not a `'\n'`; vacuously at the end).
-/
def fixGo : Option Char → List Char → List Char
  | _, [] => []
  | prev, c :: cs =>
    (if c == '\n' && !(prev == some '\n') && !(cs.head? == some '\n')
      then ' ' else c) :: fixGo (some c) cs

/-- `fix_line_breaks(text)` from `buch_app.py`. -/
def fix_line_breaks (s : List Char) : List Char := fixGo none s

/- ### Position-wise description of the normalizer -/

/-- Position `i` of `s` holds a line break (out-of-range positions do not). -/
def nlAt (s : List Char) (i : Nat) : Bool := s.getD i 'x' == '\n'

/-- Position `i` is replaced by the normalizer: it holds a line break that
is not immediately preceded and not immediately followed by another line
break (a missing neighbour at a text boundary counts as non-line-break). -/
def replacedPos (s : List Char) (i : Nat) : Bool :=
  nlAt s i && !(decide (0 < i) && nlAt s (i - 1)) && !nlAt s (i + 1)

/-- The normalizer described position by position (used to state the
amended C5). -/
def amendedFix (s : List Char) : List Char :=
  (List.range s.length).map (fun i => if replacedPos s i then ' ' else s.getD i 'x')

/-- The previous character of position `i`, as seen by the scan of
`fixGo` that entered the list with original predecessor `prev`. -/
def prevNl (prev : Option Char) (s : List Char) : Nat → Bool
  | 0 => prev == some '\n'
  | i + 1 => nlAt s i

def fixCond (prev : Option Char) (s : List Char) (i : Nat) : Bool :=
  nlAt s i && !prevNl prev s i && !nlAt s (i + 1)

/-- The neighbour position holds a character and that character is not a
line break (used to state the Normalizer contract the way C5 words it). -/
def nonNlChar : Option Char → Bool
  | none => false
  | some p => p != '\n'

/-- The Whitespace Normalizer as claim C5 words it: replace exactly those
line breaks that are immediately preceded AND immediately followed by a
non-line-break CHARACTER, so a line break at the very start or end of the
text (which has no neighbour on that side) is never replaced. -/
def claimedFixGo : Option Char → List Char → List Char
  | _, [] => []
  | prev, c :: cs =>
    (if c == '\n' && nonNlChar prev && nonNlChar cs.head?
      then ' ' else c) :: claimedFixGo (some c) cs

def claimedFixLineBreaks (s : List Char) : List Char := claimedFixGo none s

/-- `estimate_price_and_duration(text, rate_per_million)`: cost and
duration estimate.  Python float arithmetic is modelled over `ℚ` (the
literal `0.4` is the rational 2/5); at every input the claims mention
the float results are exact, so the rational model agrees with the code
there. -/
def estimate_price_and_duration (text : List Char) (rate_per_million : ℚ) : ℚ × ℚ :=
  let char_count : ℚ := (text.length : ℚ)
  let estimated_cost : ℚ := (char_count / 1000000) * rate_per_million
  let word_count : ℚ := ((splitWs text).length : ℚ)
  let estimated_seconds : ℚ := word_count * (2 / 5)
  (estimated_cost, estimated_seconds)

/-- `format_duration(seconds)`: `minutes = int(seconds // 60)` and
`sec = int(seconds % 60)`; the Python float remainder is non-negative, so
the `int` truncations are floors.  Renders "X Minuten Y Sekunden" and
omits the minutes part when it is zero. -/
def format_duration (seconds : ℚ) : String :=
  let minutes : ℤ := ⌊seconds / 60⌋
  let sec : ℤ := ⌊seconds - 60 * (minutes : ℚ)⌋
  if minutes > 0 then
    toString minutes ++ " Minuten " ++ toString sec ++ " Sekunden"
  else
    toString sec ++ " Sekunden"

/- ### Structure of the tokenization, for the empty-chunk analysis -/

/-- All tokens of the list except possibly the last one are nonempty. -/
def AllButLastNe (l : List (List Char)) : Prop := ∀ t ∈ l.dropLast, t ≠ []

/-- The first maximal run of the text: its leading whitespace run if it
starts with whitespace, its leading non-whitespace token otherwise. -/
def firstRun : List Char → List Char
  | [] => []
  | c :: cs => (c :: cs).takeWhile (fun x => isSpace x == isSpace c)

/- ### The orchestrator `convert_text_to_speech` -/

/-- Python's `audio_path.startswith("Error:")`. -/
def startsWithError (s : List Char) : Bool :=
  s.take 6 == ('E' :: 'r' :: 'r' :: 'o' :: 'r' :: ':' :: [])

/-- Behaviour of the external collaborators used by
`convert_text_to_speech` during one conversion request: `tts` is
`text_to_speech` (returns either a temp-file path or an
"Error:"-prefixed string), `fileExists` is `os.path.exists`, `decode` is
`AudioSegment.from_mp3` (`none` models the raised exception), and
`exportName` is the name of the fresh output temp file. -/
structure Env where
  tts : List Char → List Char
  fileExists : List Char → Bool
  decode : List Char → Option (List Char)
  exportName : List Char

/-- One `st.error` message of the chunk loop, together with the 1-based
chunk number it reports. -/
inductive Msg
  | chunkError (idx : Nat) (cause : List Char)
  | chunkMissing (idx : Nat) (path : List Char)
  | chunkLoadError (idx : Nat)
deriving DecidableEq

/-- What `convert_text_to_speech` gives back to its caller: the audio
file path, one of its error strings (discriminated by which `return`
statement produced it), or the crash on `combined_audio = None`. -/
inductive ConvRet
  | retPath (p : List Char)
  | retTtsError (s : List Char)
  | retMissing (idx : Nat)
  | retLoadError (idx : Nat)
  | crash
deriving DecidableEq

/-- Observable outcome of `convert_text_to_speech`: the returned value,
the texts passed to `text_to_speech` in order, the `st.error` messages
shown, and the combined audio written to the output file (if any). -/
structure ConvOut where
  ret : ConvRet
  calls : List (List Char)
  msgs : List Msg
  exported : Option (List (List Char))
deriving DecidableEq

/-- `combined_audio = segment` on the first success, `combined_audio +=
segment` afterwards. -/
def appendSeg : Option (List (List Char)) → List Char → Option (List (List Char))
  | none, seg => some [seg]
  | some l, seg => some (l ++ [seg])

/-- Record the adapter call for the current chunk in front of the rest
of the loop's outcome. -/
def consCall (ch : List Char) (out : ConvOut) : ConvOut :=
  { ret := out.ret, calls := ch :: out.calls, msgs := out.msgs,
    exported := out.exported }

/-- The chunk loop of `convert_text_to_speech`: `i` is the 0-based index
of the first chunk of the remaining list, `combined` the audio decoded
so far.  After the last chunk the combined audio is exported and the
output file name returned. -/
def convertLoop (env : Env) :
    List (List Char) → Nat → Option (List (List Char)) → ConvOut
  | [], _, combined =>
    match combined with
    | some audio =>
      { ret := ConvRet.retPath env.exportName, calls := [], msgs := [],
        exported := some audio }
    | none => { ret := ConvRet.crash, calls := [], msgs := [], exported := none }
  | ch :: cs, i, combined =>
    if startsWithError (env.tts ch) then
      { ret := ConvRet.retTtsError (env.tts ch), calls := [ch],
        msgs := [Msg.chunkError (i + 1) (env.tts ch)], exported := none }
    else if env.fileExists (env.tts ch) = false then
      { ret := ConvRet.retMissing (i + 1), calls := [ch],
        msgs := [Msg.chunkMissing (i + 1) (env.tts ch)], exported := none }
    else
      match env.decode (env.tts ch) with
      | none =>
        { ret := ConvRet.retLoadError (i + 1), calls := [ch],
          msgs := [Msg.chunkLoadError (i + 1)], exported := none }
      | some seg =>
        consCall ch (convertLoop env cs (i + 1) (appendSeg combined seg))

/-- `convert_text_to_speech(text, voice, model)`: a text of at most
`MAX_CHARS` characters goes to a single `text_to_speech` call whose
result is returned as is (the caller distinguishes success from failure
by the "Error:" prefix); a longer text is chunked with `chunk_text` and
processed by the chunk loop. -/
def convert_text_to_speech (env : Env) (text : List Char) : ConvOut :=
  if text.length ≤ MAX_CHARS then
    { ret :=
        if startsWithError (env.tts text) then ConvRet.retTtsError (env.tts text)
        else ConvRet.retPath (env.tts text),
      calls := [text], msgs := [], exported := none }
  else
    convertLoop env (chunk_text text MAX_CHARS) 0 none

/-- The adapter call for this chunk fully succeeds: no "Error:" string,
the temp file exists, and decoding it does not raise. -/
def adapterOk (env : Env) (ch : List Char) : Prop :=
  startsWithError (env.tts ch) = false ∧ env.fileExists (env.tts ch) = true ∧
    (env.decode (env.tts ch)).isSome = true

/- ### Theorems -/

/- ### Helper lemmas about the tokenizer and the chunk loop -/

theorem lengthDropWhileLe (p : Char → Bool) :
    ∀ l : List Char, (l.dropWhile p).length ≤ l.length := by
  intro l
  induction l with
  | nil => simp
  | cons c cs ih =>
    rw [List.dropWhile_cons]
    by_cases h : p c = true
    · simp only [if_pos h]
      exact Nat.le_succ_of_le ih
    · simp only [if_neg h]
      exact Nat.le_refl _

theorem dropWhile_lt_of_head (p : Char → Bool) (r : Char) (rs : List Char)
    (h : p r = true) :
    ((r :: rs).dropWhile p).length < (r :: rs).length := by
  simp [List.dropWhile_cons, h]
  exact Nat.lt_succ_of_le (lengthDropWhileLe p rs)

theorem reSplitWsF_join :
    ∀ fuel s, s.length < fuel → (reSplitWsF fuel s).flatten = s := by
  intro fuel
  induction fuel with
  | zero => intro s h; omega
  | succ n ih =>
    intro s h
    show (reSplitWsF (n + 1) s).flatten = s
    rw [reSplitWsF]
    cases hrest : s.dropWhile (fun c => !isSpace c) with
    | nil =>
      simp only [List.flatten]
      have := List.takeWhile_append_dropWhile (p := fun c => !isSpace c) (l := s)
      rw [hrest] at this
      simpa using this
    | cons r rs =>
      simp only [List.flatten]
      have hr : isSpace r = true := by
        have := List.head?_dropWhile_not (fun c => !isSpace c) s
        rw [hrest] at this
        simpa using this
      have hlt : ((r :: rs).dropWhile isSpace).length < s.length := by
        calc ((r :: rs).dropWhile isSpace).length < (r :: rs).length :=
              dropWhile_lt_of_head isSpace r rs hr
          _ ≤ s.length := by
              rw [← hrest]; exact lengthDropWhileLe _ s
      have hrec := ih ((r :: rs).dropWhile isSpace) (by omega)
      rw [hrec]
      have h2 := List.takeWhile_append_dropWhile (p := isSpace) (l := r :: rs)
      have h1 := List.takeWhile_append_dropWhile (p := fun c => !isSpace c) (l := s)
      rw [hrest] at h1
      rw [h2, h1]

theorem reSplitWs_join (s : List Char) : (reSplitWs s).flatten = s :=
  reSplitWsF_join (s.length + 1) s (Nat.lt_succ_self _)

theorem chunkGo_join (maxLength : Nat) :
    ∀ (toks : List (List Char)) (cur : List Char),
      (chunkGo maxLength toks cur).flatten = cur ++ toks.flatten := by
  intro toks
  induction toks with
  | nil =>
    intro cur
    by_cases h : cur = [] <;> simp [chunkGo, h]
  | cons t ts ih =>
    intro cur
    rw [chunkGo]
    by_cases h : cur.length + t.length ≤ maxLength
    · simp only [if_pos h, ih]
      simp
    · simp only [if_neg h, List.flatten, ih]

/-- C1: for every Text and every maximum length L ≥ 1, concatenating the
chunks produced by `chunk_text` in order yields exactly the original
text, and the empty text yields the empty chunk sequence. -/
theorem chunk_roundtrip (text : List Char) (L : Nat) (hL : 1 ≤ L) :
    (chunk_text text L).flatten = text ∧ chunk_text ([] : List Char) L = [] := by
  constructor
  · rw [chunk_text, chunkGo_join, reSplitWs_join]
    simp
  · rw [chunk_text]
    show chunkGo L (reSplitWsF 1 []) [] = []
    rw [reSplitWsF]
    simp [chunkGo]

theorem chunk_roundtrip_witness :
    (chunk_text ('a' :: 'b' :: ' ' :: 'c' :: []) 3).flatten =
        ('a' :: 'b' :: ' ' :: 'c' :: []) ∧
      chunk_text ([] : List Char) 3 = [] :=
  chunk_roundtrip ('a' :: 'b' :: ' ' :: 'c' :: []) 3 (by decide)

theorem chunkGo_bound (L : Nat) :
    ∀ (toks : List (List Char)) (cur : List Char),
      cur.length ≤ L → (∀ t ∈ toks, t.length ≤ L) →
      ∀ c ∈ chunkGo L toks cur, c.length ≤ L := by
  intro toks
  induction toks with
  | nil =>
    intro cur hcur _ c hc
    by_cases h : cur = [] <;> simp [chunkGo, h] at hc
    · subst hc; exact hcur
  | cons t ts ih =>
    intro cur hcur htoks c hc
    rw [chunkGo] at hc
    by_cases h : cur.length + t.length ≤ L
    · rw [if_pos h] at hc
      exact ih (cur ++ t) (by simpa using h)
        (fun x hx => htoks x (List.mem_cons_of_mem _ hx)) c hc
    · rw [if_neg h] at hc
      rcases List.mem_cons.mp hc with h1 | h2
      · subst h1; exact hcur
      · exact ih t (htoks t (List.mem_cons_self t ts))
          (fun x hx => htoks x (List.mem_cons_of_mem _ hx)) c h2

/-- C2 counterexample: in the text `"a" ++ " " * 20` no whitespace-delimited
(non-whitespace) token is longer than 10, yet `chunk_text` with maximum
length 10 produces a chunk of length 20 (the whitespace run itself). -/
theorem chunk_bound_counterexample :
    (∀ t ∈ splitWs ('a' :: List.replicate 20 ' '), t.length ≤ 10) ∧
      ¬ (∀ c ∈ chunk_text ('a' :: List.replicate 20 ' ') 10, c.length ≤ 10) := by
  decide

/-- C2 amended: if no token of the whitespace/non-whitespace tokenization
(whitespace runs included) is longer than `L`, then every chunk produced
by `chunk_text` with maximum length `L` has length at most `L`. -/
theorem chunk_bound_amended (text : List Char) (L : Nat)
    (h : ∀ t ∈ reSplitWs text, t.length ≤ L) :
    ∀ c ∈ chunk_text text L, c.length ≤ L :=
  chunkGo_bound L (reSplitWs text) [] (by simp) h

theorem chunk_bound_amended_witness :
    ('a' :: 'b' :: ' ' :: 'c' :: 'd' :: [])
        ∈ chunk_text ('a' :: 'b' :: ' ' :: 'c' :: 'd' :: []) 5 ∧
      ('a' :: 'b' :: ' ' :: 'c' :: 'd' :: []).length ≤ 5 :=
  ⟨by decide,
    chunk_bound_amended ('a' :: 'b' :: ' ' :: 'c' :: 'd' :: []) 5 (by decide)
      ('a' :: 'b' :: ' ' :: 'c' :: 'd' :: []) (by decide)⟩

theorem chunk_single_big (t : List Char) (L : Nat) (hne : t ≠ [])
    (hns : ∀ c ∈ t, isSpace c = false) (hlen : L < t.length) :
    chunk_text t L = [[], t] := by
  have htake : t.takeWhile (fun c => !isSpace c) = t :=
    List.takeWhile_eq_self_iff.mpr (by intro x hx; simp [hns x hx])
  have hdrop : t.dropWhile (fun c => !isSpace c) = [] :=
    List.dropWhile_eq_nil_iff.mpr (by intro x hx; simp [hns x hx])
  have hsplit : reSplitWs t = [t] := by
    rw [reSplitWs]
    show reSplitWsF (t.length + 1) t = [t]
    rw [reSplitWsF]
    simp only [hdrop, htake]
  rw [chunk_text, hsplit, chunkGo]
  have hgt : ¬ (List.length ([] : List Char) + t.length ≤ L) := by
    simp only [List.length_nil, Nat.zero_add]
    omega
  rw [if_neg hgt, chunkGo, if_neg hne]

/-- C4 counterexample: the text made of a single non-whitespace token of
length 20 = 2L (L = 10) is chunked into TWO chunks: an empty first chunk
followed by the token, not into a single chunk. -/
theorem oversized_single_counterexample :
    chunk_text (List.replicate 20 'x') 10 = [[], List.replicate 20 'x'] ∧
      (chunk_text (List.replicate 20 'x') 10).length ≠ 1 := by
  decide

/-- C4 amended: a text consisting of exactly one non-whitespace token
longer than `L` (in particular one of length 2L with L = 10) is chunked
into an empty first chunk followed by the whole token as a single
oversized chunk; the token is neither split nor dropped. -/
theorem oversized_token_passthrough (t : List Char) (L : Nat) (hne : t ≠ [])
    (hns : ∀ c ∈ t, isSpace c = false) (hlen : L < t.length) :
    chunk_text t L = [[], t] :=
  chunk_single_big t L hne hns hlen

theorem oversized_token_passthrough_witness :
    chunk_text (List.replicate 20 'x') 10 = [[], List.replicate 20 'x'] :=
  oversized_token_passthrough (List.replicate 20 'x') 10 (by decide)
    (by decide) (by decide)

theorem chunkGo_oversized_mem (L : Nat) :
    ∀ (toks : List (List Char)) (cur : List Char) (S : List (List Char)),
      (cur.length ≤ L ∨ cur ∈ S) → (∀ t ∈ toks, t ∈ S) →
      ∀ c ∈ chunkGo L toks cur, L < c.length → c ∈ S := by
  intro toks
  induction toks with
  | nil =>
    intro cur S hcur _ c hc hlen
    by_cases h : cur = [] <;> simp [chunkGo, h] at hc
    subst hc
    rcases hcur with h1 | h2
    · omega
    · exact h2
  | cons t ts ih =>
    intro cur S hcur htoks c hc hlen
    rw [chunkGo] at hc
    by_cases h : cur.length + t.length ≤ L
    · rw [if_pos h] at hc
      exact ih (cur ++ t) S (Or.inl (by simpa using h))
        (fun x hx => htoks x (List.mem_cons_of_mem _ hx)) c hc hlen
    · rw [if_neg h] at hc
      rcases List.mem_cons.mp hc with h1 | h2
      · subst h1
        rcases hcur with h1 | h1
        · omega
        · exact h1
      · exact ih t S (Or.inr (htoks t (List.mem_cons_self t ts)))
          (fun x hx => htoks x (List.mem_cons_of_mem _ hx)) c h2 hlen

/-- C9: every chunk produced by `chunk_text` whose length exceeds `L` is
exactly one token of the whitespace/non-whitespace tokenization of the
text (a single maximal run), i.e. it occurs in `reSplitWs text`. -/
theorem oversized_chunk_is_token (text : List Char) (L : Nat) (hL : 1 ≤ L)
    (c : List Char) (hc : c ∈ chunk_text text L) (hlen : L < c.length) :
    c ∈ reSplitWs text :=
  chunkGo_oversized_mem L (reSplitWs text) [] (reSplitWs text)
    (Or.inl (by simp)) (fun _ hx => hx) c hc hlen

theorem oversized_chunk_is_token_witness :
    List.replicate 20 'x' ∈ reSplitWs (List.replicate 20 'x') :=
  oversized_chunk_is_token (List.replicate 20 'x') 10 (by decide)
    (List.replicate 20 'x') (by decide) (by decide)

theorem fixGo_length : ∀ (s : List Char) (prev : Option Char),
    (fixGo prev s).length = s.length := by
  intro s
  induction s with
  | nil => intro prev; rfl
  | cons c cs ih => intro prev; simp [fixGo, ih]

theorem fixCond_zero (prev : Option Char) (c : Char) (cs : List Char) :
    fixCond prev (c :: cs) 0
      = (c == '\n' && !(prev == some '\n') && !(cs.head? == some '\n')) := by
  cases cs <;> simp [fixCond, prevNl, nlAt]

theorem fixCond_succ (prev : Option Char) (c : Char) (cs : List Char) (i : Nat) :
    fixCond prev (c :: cs) (i + 1) = fixCond (some c) cs i := by
  cases i <;> simp [fixCond, prevNl, nlAt]

theorem fixGo_getD : ∀ (s : List Char) (prev : Option Char) (i : Nat),
    (fixGo prev s).getD i 'x' = if fixCond prev s i then ' ' else s.getD i 'x' := by
  intro s
  induction s with
  | nil =>
    intro prev i
    simp [fixGo, fixCond, nlAt]
  | cons c cs ih =>
    intro prev i
    cases i with
    | zero =>
      rw [fixCond_zero]
      simp [fixGo]
    | succ j =>
      rw [fixCond_succ]
      simpa [fixGo] using ih (some c) j

theorem fixCond_none (s : List Char) (i : Nat) :
    fixCond none s i = replacedPos s i := by
  cases i <;> simp [fixCond, prevNl, replacedPos]

theorem fix_line_breaks_getD (s : List Char) (i : Nat) :
    (fix_line_breaks s).getD i 'x'
      = if replacedPos s i then ' ' else s.getD i 'x' := by
  rw [fix_line_breaks, fixGo_getD, fixCond_none]

theorem listEqOfGetD : ∀ (l1 l2 : List Char), l1.length = l2.length →
    (∀ i, l1.getD i 'x' = l2.getD i 'x') → l1 = l2 := by
  intro l1
  induction l1 with
  | nil =>
    intro l2 hlen _
    cases l2 with
    | nil => rfl
    | cons b bs => simp at hlen
  | cons a as ih =>
    intro l2 hlen hget
    cases l2 with
    | nil => simp at hlen
    | cons b bs =>
      have h0 := hget 0
      simp at h0
      have := ih bs (by simpa using hlen) (fun i => by simpa using hget (i + 1))
      rw [h0, this]

theorem amendedFix_length (s : List Char) : (amendedFix s).length = s.length := by
  simp [amendedFix]

theorem amendedFix_getD (s : List Char) (i : Nat) :
    (amendedFix s).getD i 'x' = if replacedPos s i then ' ' else s.getD i 'x' := by
  by_cases h : i < s.length
  · rw [amendedFix, List.getD_eq_getElem?_getD, List.getElem?_map]
    rw [List.getElem?_range h]
    rfl
  · have h1 : (amendedFix s).getD i 'x' = 'x' :=
      List.getD_eq_default _ _ (by rw [amendedFix_length]; omega)
    have h2 : s.getD i 'x' = 'x' := List.getD_eq_default _ _ (by omega)
    have hnl : nlAt s i = false := by
      rw [nlAt, h2]; rfl
    have h3 : replacedPos s i = false := by
      rw [replacedPos, hnl, Bool.false_and, Bool.false_and]
    rw [h1, h2, h3]
    simp

theorem fix_line_breaks_eq_amended (s : List Char) :
    fix_line_breaks s = amendedFix s :=
  listEqOfGetD _ _
    (by rw [fix_line_breaks, fixGo_length, amendedFix_length])
    (fun i => by rw [fix_line_breaks_getD, amendedFix_getD])

/-- C5 counterexample: on the one-character text `"\n"` the code replaces
the line break (the regex lookbehind and lookahead succeed vacuously at
the text boundaries), while the claimed contract — replace only line
breaks with a non-line-break character on BOTH sides — leaves it
unchanged. -/
theorem normalizer_contract_counterexample :
    fix_line_breaks ('\n' :: []) = (' ' :: []) ∧
      claimedFixLineBreaks ('\n' :: []) = ('\n' :: []) ∧
      fix_line_breaks ('\n' :: []) ≠ claimedFixLineBreaks ('\n' :: []) := by
  decide

/-- C5 amended: `fix_line_breaks` always succeeds, returns a text of the
same length (hence of equal or lesser length), and replaces with a single
space exactly those line breaks that are NOT immediately preceded and NOT
immediately followed by another line break, where a missing neighbour at
a text boundary counts as non-line-break context; every other character
(in particular every line break inside a run of two or more) is kept
unchanged at its position. -/
theorem normalizer_contract_amended (s : List Char) :
    fix_line_breaks s = amendedFix s ∧
      (fix_line_breaks s).length = s.length ∧
      (fix_line_breaks s).length ≤ s.length := by
  refine ⟨fix_line_breaks_eq_amended s, ?_, ?_⟩
  · rw [fix_line_breaks, fixGo_length]
  · rw [fix_line_breaks, fixGo_length]

theorem replacedPos_fix_false (s : List Char) (i : Nat) :
    replacedPos (fix_line_breaks s) i = false := by
  by_cases hnl : nlAt (fix_line_breaks s) i = true
  · -- the kept line break still has a line-break neighbour
    have hkeep : replacedPos s i = false ∧ s.getD i 'x' = '\n' := by
      have := fix_line_breaks_getD s i
      by_cases hr : replacedPos s i
      · rw [if_pos hr] at this
        rw [nlAt, this] at hnl
        simp at hnl
      · rw [if_neg hr] at this
        rw [nlAt, this] at hnl
        refine ⟨by simp [hr], ?_⟩
        simpa using hnl
    have hsnl : nlAt s i = true := by
      rw [nlAt, hkeep.2]; rfl
    have hnb : (decide (0 < i) && nlAt s (i - 1)) = true ∨ nlAt s (i + 1) = true := by
      have hf := hkeep.1
      rw [replacedPos, hsnl] at hf
      rcases Bool.and_eq_false_iff.mp hf with h | h
      · rcases Bool.and_eq_false_iff.mp h with h' | h'
        · simp at h'
        · left
          simpa using h'
      · right
        simpa using h
    rcases hnb with hprev | hnext
    · -- the predecessor of position i is a line break, and it is kept
      have h0i : 0 < i := by
        rcases Bool.and_eq_true_iff.mp hprev with ⟨h1, _⟩
        simpa using h1
      have hpnl : nlAt s (i - 1) = true :=
        (Bool.and_eq_true_iff.mp hprev).2
      have hpkeep : replacedPos s (i - 1) = false := by
        have : nlAt s ((i - 1) + 1) = true := by
          have : i - 1 + 1 = i := by omega
          rw [this]; exact hsnl
        rw [replacedPos, this]
        simp
      have : nlAt (fix_line_breaks s) (i - 1) = true := by
        rw [nlAt, fix_line_breaks_getD, if_neg (by simp [hpkeep])]
        rw [nlAt] at hpnl
        exact hpnl
      rw [replacedPos]
      have hc : (decide (0 < i) && nlAt (fix_line_breaks s) (i - 1)) = true := by
        rw [this]
        simp [h0i]
      rw [hc]
      simp
    · -- the successor of position i is a line break, and it is kept
      have hskeep : replacedPos s (i + 1) = false := by
        rw [replacedPos]
        have h1 : (decide (0 < i + 1) && nlAt s (i + 1 - 1)) = true := by
          have : i + 1 - 1 = i := by omega
          rw [this, hsnl]
          simp
        rw [h1]
        simp
      have : nlAt (fix_line_breaks s) (i + 1) = true := by
        rw [nlAt, fix_line_breaks_getD, if_neg (by simp [hskeep])]
        rw [nlAt] at hnext
        exact hnext
      rw [replacedPos, this]
      simp
  · rw [replacedPos]
    have : nlAt (fix_line_breaks s) i = false := by
      simpa using hnl
    rw [this, Bool.false_and, Bool.false_and]

/-- C6: the Whitespace Normalizer is idempotent: applying
`fix_line_breaks` twice yields the same text as applying it once. -/
theorem normalizer_idempotent (t : List Char) :
    fix_line_breaks (fix_line_breaks t) = fix_line_breaks t := by
  apply listEqOfGetD
  · rw [fix_line_breaks, fixGo_length]
  · intro i
    rw [fix_line_breaks_getD, replacedPos_fix_false]
    simp

/-- C8: normalization preserves the length exactly, and at every position
the character is either unchanged or is a line break replaced by exactly
one space. -/
theorem normalizer_length_preserving (t : List Char) :
    (fix_line_breaks t).length = t.length ∧
      ∀ i, i < t.length →
        ((fix_line_breaks t).getD i 'x' = t.getD i 'x' ∨
          (t.getD i 'x' = '\n' ∧ (fix_line_breaks t).getD i 'x' = ' ')) := by
  refine ⟨by rw [fix_line_breaks, fixGo_length], ?_⟩
  intro i _
  rw [fix_line_breaks_getD]
  by_cases hr : replacedPos t i = true
  · right
    refine ⟨?_, by rw [if_pos hr]⟩
    have := (Bool.and_eq_true_iff.mp ((Bool.and_eq_true_iff.mp hr).1)).1
    rw [nlAt] at this
    simpa using this
  · left
    rw [if_neg hr]

theorem normalizer_length_preserving_witness :
    2 < ('a' :: '\n' :: '\n' :: 'b' :: []).length ∧
      ((fix_line_breaks ('a' :: '\n' :: '\n' :: 'b' :: [])).getD 2 'x'
          = ('a' :: '\n' :: '\n' :: 'b' :: []).getD 2 'x' ∨
        (('a' :: '\n' :: '\n' :: 'b' :: []).getD 2 'x' = '\n' ∧
          (fix_line_breaks ('a' :: '\n' :: '\n' :: 'b' :: [])).getD 2 'x' = ' ')) :=
  ⟨by decide,
    (normalizer_length_preserving ('a' :: '\n' :: '\n' :: 'b' :: [])).2 2 (by decide)⟩

/-- C7: the Estimator returns cost = (character count / 1,000,000) · rate
and duration = word count · 0.4 seconds (words = whitespace-delimited
tokens); the empty text yields zero cost and zero duration; a text of
exactly 1,000,000 characters at rate 15 yields cost 15; a text with 40
words yields duration 16 seconds, which `format_duration` renders as
"16 Sekunden" with the zero minutes component omitted. -/
theorem estimator_arithmetic (t : List Char) (rate : ℚ) :
    (estimate_price_and_duration t rate).1 = rate * (t.length : ℚ) / 1000000 ∧
      (estimate_price_and_duration t rate).2 = 2 * ((splitWs t).length : ℚ) / 5 ∧
      estimate_price_and_duration [] rate = (0, 0) ∧
      (t.length = 1000000 → (estimate_price_and_duration t 15).1 = 15) ∧
      ((splitWs t).length = 40 →
        (estimate_price_and_duration t rate).2 = 16 ∧
          format_duration (estimate_price_and_duration t rate).2 = "16 Sekunden") := by
  refine ⟨?_, ?_, ?_, ?_, ?_⟩
  · rw [estimate_price_and_duration]
    ring
  · rw [estimate_price_and_duration]
    ring
  · rw [estimate_price_and_duration]
    norm_num
    rfl
  · intro h
    rw [estimate_price_and_duration, h]
    norm_num
  · intro h
    have hdur : (estimate_price_and_duration t rate).2 = 16 := by
      rw [estimate_price_and_duration, h]
      norm_num
    refine ⟨hdur, ?_⟩
    rw [hdur]
    have h60 : (⌊(16 : ℚ) / 60⌋ : ℤ) = 0 := by
      rw [Int.floor_eq_zero_iff, Set.mem_Ico]
      norm_num
    have h16 : (⌊(16 : ℚ) - 60 * ((0 : ℤ) : ℚ)⌋ : ℤ) = 16 := by
      norm_num
    rw [format_duration]
    simp only [h60, h16]
    norm_num
    rfl

theorem estimator_arithmetic_witness :
    (estimate_price_and_duration (List.replicate 1000000 'a') 15).1 = 15 ∧
      (estimate_price_and_duration
          ((List.replicate 40 ('a' :: ' ' :: [])).flatten) 0).2 = 16 ∧
      format_duration
          (estimate_price_and_duration
            ((List.replicate 40 ('a' :: ' ' :: [])).flatten) 0).2 = "16 Sekunden" :=
  ⟨(estimator_arithmetic (List.replicate 1000000 'a') 15).2.2.2.1 (List.length_replicate 1000000 'a'),
    ((estimator_arithmetic ((List.replicate 40 ('a' :: ' ' :: [])).flatten) 0).2.2.2.2
      (by decide)).1,
    ((estimator_arithmetic ((List.replicate 40 ('a' :: ' ' :: [])).flatten) 0).2.2.2.2
      (by decide)).2⟩

theorem allButLastNe_nil : AllButLastNe [] := by
  intro t ht
  simp at ht

theorem allButLastNe_single (x : List Char) : AllButLastNe [x] := by
  intro t ht
  simp at ht

theorem allButLastNe_tail {t : List Char} {ts : List (List Char)}
    (h : AllButLastNe (t :: ts)) : AllButLastNe ts := by
  cases ts with
  | nil => exact allButLastNe_nil
  | cons u us =>
    intro x hx
    exact h x (by rw [List.dropLast_cons₂]; exact List.mem_cons_of_mem _ hx)

theorem allButLastNe_head {t : List Char} {ts : List (List Char)}
    (h : AllButLastNe (t :: ts)) (hne : ts ≠ []) : t ≠ [] := by
  cases ts with
  | nil => exact absurd rfl hne
  | cons u us =>
    exact h t (by rw [List.dropLast_cons₂]; exact List.mem_cons_self t _)

theorem allButLastNe_cons {t : List Char} {ts : List (List Char)}
    (ht : t ≠ []) (h : AllButLastNe ts) : AllButLastNe (t :: ts) := by
  cases ts with
  | nil => exact allButLastNe_single t
  | cons u us =>
    intro x hx
    rw [List.dropLast_cons₂] at hx
    rcases List.mem_cons.mp hx with h1 | h2
    · subst h1; exact ht
    · exact h x h2

theorem reSplitWsF_ne_nil (fuel : Nat) (s : List Char) (h : 0 < fuel) :
    reSplitWsF fuel s ≠ [] := by
  cases fuel with
  | zero => omega
  | succ n =>
    rw [reSplitWsF]
    cases s.dropWhile (fun c => !isSpace c) <;> simp

theorem reSplitWsF_head (fuel : Nat) (s : List Char) (h : 0 < fuel) :
    ∃ rest, reSplitWsF fuel s = s.takeWhile (fun c => !isSpace c) :: rest := by
  cases fuel with
  | zero => omega
  | succ n =>
    rw [reSplitWsF]
    cases s.dropWhile (fun c => !isSpace c) with
    | nil => exact ⟨[], rfl⟩
    | cons r rs => exact ⟨_, rfl⟩

theorem reSplitWsF_all_ne :
    ∀ fuel s, s.length < fuel →
      (∀ c, s.head? = some c → isSpace c = false) →
      AllButLastNe (reSplitWsF fuel s) := by
  intro fuel
  induction fuel with
  | zero => intro s h; omega
  | succ n ih =>
    intro s h hhead
    rw [reSplitWsF]
    cases hrest : s.dropWhile (fun c => !isSpace c) with
    | nil => exact allButLastNe_single _
    | cons r rs =>
      have hr : isSpace r = true := by
        have := List.head?_dropWhile_not (fun c => !isSpace c) s
        rw [hrest] at this
        simpa using this
      -- the text is nonempty and starts with a non-whitespace character
      have hs : ∃ c cs, s = c :: cs ∧ isSpace c = false := by
        cases s with
        | nil => simp at hrest
        | cons c cs =>
          exact ⟨c, cs, rfl, hhead c rfl⟩
      rcases hs with ⟨c, cs, hcs, hcfalse⟩
      have hp : s.takeWhile (fun c => !isSpace c) ≠ [] := by
        rw [hcs, List.takeWhile_cons, if_pos (by simp [hcfalse])]
        simp
      have hw : (r :: rs).takeWhile isSpace ≠ [] := by
        rw [List.takeWhile_cons, if_pos hr]
        simp
      have hlt : ((r :: rs).dropWhile isSpace).length < n := by
        have h1 : ((r :: rs).dropWhile isSpace).length < (r :: rs).length :=
          dropWhile_lt_of_head isSpace r rs hr
        have h2 : (r :: rs).length ≤ s.length := by
          rw [← hrest]; exact lengthDropWhileLe _ s
        omega
      have hT : AllButLastNe (reSplitWsF n ((r :: rs).dropWhile isSpace)) := by
        apply ih _ hlt
        intro c0 hc0
        have := List.head?_dropWhile_not isSpace (r :: rs)
        rw [hc0] at this
        simpa using this
      have hTne : reSplitWsF n ((r :: rs).dropWhile isSpace) ≠ [] :=
        reSplitWsF_ne_nil n _ (by omega)
      exact allButLastNe_cons hp
        (allButLastNe_cons hw hT)

theorem reSplitWsF_tail_ne (fuel : Nat) (s : List Char) (h : s.length < fuel) :
    AllButLastNe (reSplitWsF fuel s).tail := by
  cases fuel with
  | zero => omega
  | succ n =>
    rw [reSplitWsF]
    cases hrest : s.dropWhile (fun c => !isSpace c) with
    | nil => exact allButLastNe_nil
    | cons r rs =>
      have hr : isSpace r = true := by
        have := List.head?_dropWhile_not (fun c => !isSpace c) s
        rw [hrest] at this
        simpa using this
      have hw : (r :: rs).takeWhile isSpace ≠ [] := by
        rw [List.takeWhile_cons, if_pos hr]
        simp
      have hlt : ((r :: rs).dropWhile isSpace).length < n := by
        have h1 : ((r :: rs).dropWhile isSpace).length < (r :: rs).length :=
          dropWhile_lt_of_head isSpace r rs hr
        have h2 : (r :: rs).length ≤ s.length := by
          rw [← hrest]; exact lengthDropWhileLe _ s
        omega
      have hT : AllButLastNe (reSplitWsF n ((r :: rs).dropWhile isSpace)) := by
        apply reSplitWsF_all_ne _ _ hlt
        intro c0 hc0
        have := List.head?_dropWhile_not isSpace (r :: rs)
        rw [hc0] at this
        simpa using this
      exact allButLastNe_cons hw hT

theorem chunkGo_all_ne (L : Nat) :
    ∀ (toks : List (List Char)) (cur : List Char),
      AllButLastNe toks → (cur = [] → toks = []) →
      ∀ c ∈ chunkGo L toks cur, c ≠ [] := by
  intro toks
  induction toks with
  | nil =>
    intro cur _ _ c hc
    by_cases h : cur = [] <;> simp [chunkGo, h] at hc
    subst hc
    exact h
  | cons t ts ih =>
    intro cur htoks hcur c hc
    have hcne : cur ≠ [] := by
      intro heq
      exact List.cons_ne_nil t ts (hcur heq)
    rw [chunkGo] at hc
    by_cases h : cur.length + t.length ≤ L
    · rw [if_pos h] at hc
      exact ih (cur ++ t) (allButLastNe_tail htoks)
        (fun heq => absurd heq (by simp [hcne])) c hc
    · rw [if_neg h] at hc
      rcases List.mem_cons.mp hc with h1 | h2
      · subst h1; exact hcne
      · exact ih t (allButLastNe_tail htoks)
          (fun heq => by
            by_contra hts
            exact allButLastNe_head htoks hts heq) c h2

theorem chunkGo_tail_ne (L : Nat) :
    ∀ (toks : List (List Char)) (cur : List Char),
      AllButLastNe toks →
      ∀ c ∈ (chunkGo L toks cur).tail, c ≠ [] := by
  intro toks
  induction toks with
  | nil =>
    intro cur _ c hc
    by_cases h : cur = [] <;> simp [chunkGo, h] at hc
  | cons t ts ih =>
    intro cur htoks c hc
    rw [chunkGo] at hc
    by_cases h : cur.length + t.length ≤ L
    · rw [if_pos h] at hc
      exact ih (cur ++ t) (allButLastNe_tail htoks) c hc
    · rw [if_neg h] at hc
      rw [List.tail_cons] at hc
      exact chunkGo_all_ne L ts t (allButLastNe_tail htoks)
        (fun heq => by
          by_contra hts
          exact allButLastNe_head htoks hts heq) c hc

theorem takeWhileCongr (p q : Char → Bool) (h : ∀ x, p x = q x) :
    ∀ l : List Char, l.takeWhile p = l.takeWhile q := by
  intro l
  induction l with
  | nil => rfl
  | cons a as ih =>
    rw [List.takeWhile_cons, List.takeWhile_cons, h a, ih]

theorem mem_of_headEq (l : List (List Char)) (x : List Char)
    (h : l.head? = some x) : x ∈ l := by
  cases l with
  | nil => simp at h
  | cons a as =>
    simp at h
    subst h
    exact List.mem_cons_self _ _

theorem chunk_text_nil (L : Nat) : chunk_text [] L = [] := by
  rw [chunk_text]
  show chunkGo L (reSplitWsF 1 []) [] = []
  rw [reSplitWsF]
  simp [chunkGo]

theorem chunk_tail_ne (text : List Char) (L : Nat) :
    ∀ c ∈ (chunk_text text L).tail, c ≠ [] := by
  obtain ⟨rest, hshape⟩ :=
    reSplitWsF_head (text.length + 1) text (Nat.succ_pos _)
  have htail : AllButLastNe rest := by
    have := reSplitWsF_tail_ne (text.length + 1) text (Nat.lt_succ_self _)
    rw [hshape] at this
    exact this
  intro c hc
  rw [chunk_text] at hc
  have hrs : reSplitWs text = text.takeWhile (fun c => !isSpace c) :: rest := hshape
  rw [hrs, chunkGo] at hc
  by_cases hle :
      List.length ([] : List Char) + (text.takeWhile (fun c => !isSpace c)).length ≤ L
  · rw [if_pos hle] at hc
    exact chunkGo_tail_ne L rest _ htail c hc
  · rw [if_neg hle] at hc
    rw [List.tail_cons] at hc
    have hp : text.takeWhile (fun c => !isSpace c) ≠ [] := by
      intro heq
      rw [heq] at hle
      simp at hle
    exact chunkGo_all_ne L rest _ htail (fun heq => absurd heq hp) c hc

theorem chunk_head_empty (text : List Char) (L : Nat)
    (h : (chunk_text text L).head? = some []) : L < (firstRun text).length := by
  cases htext : text with
  | nil =>
    rw [htext, chunk_text_nil] at h
    simp at h
  | cons c cs =>
    subst htext
    by_cases hsp : isSpace c = true
    · -- the text starts with whitespace
      have hdrop : (c :: cs).dropWhile (fun x => !isSpace x) = c :: cs := by
        rw [List.dropWhile_cons, if_neg (by simp [hsp])]
      have htake : (c :: cs).takeWhile (fun x => !isSpace x) = [] := by
        rw [List.takeWhile_cons, if_neg (by simp [hsp])]
      have hsplit : reSplitWs (c :: cs)
          = [] :: (c :: cs).takeWhile isSpace ::
              reSplitWsF (c :: cs).length ((c :: cs).dropWhile isSpace) := by
        rw [reSplitWs, reSplitWsF]
        simp only [hdrop, htake]
      have hw : (c :: cs).takeWhile isSpace = c :: cs.takeWhile isSpace := by
        rw [List.takeWhile_cons, if_pos hsp]
      rw [chunk_text, hsplit, chunkGo,
        if_pos (by simp : List.length ([] : List Char) + List.length ([] : List Char) ≤ L)] at h
      rw [List.nil_append, chunkGo] at h
      by_cases hle :
          List.length ([] : List Char) + ((c :: cs).takeWhile isSpace).length ≤ L
      · rw [if_pos hle] at h
        -- every chunk of the remaining loop is nonempty: contradiction
        have hTne : AllButLastNe
            (reSplitWsF (c :: cs).length ((c :: cs).dropWhile isSpace)) := by
          apply reSplitWsF_all_ne
          · have h1 : ((c :: cs).dropWhile isSpace).length < (c :: cs).length :=
              dropWhile_lt_of_head isSpace c cs hsp
            omega
          · intro c0 hc0
            have := List.head?_dropWhile_not isSpace (c :: cs)
            rw [hc0] at this
            simpa using this
        have hmem := mem_of_headEq _ _ h
        have hwne : ([] : List Char) ++ (c :: cs).takeWhile isSpace ≠ [] := by
          rw [List.nil_append, hw]
          simp
        exact absurd rfl
          (chunkGo_all_ne L _ _ hTne (fun heq => absurd heq hwne) [] hmem)
      · -- the leading whitespace run itself is longer than L
        rw [firstRun]
        have : (fun x => isSpace x == isSpace c) = isSpace := by
          funext x
          rw [hsp]
          cases isSpace x <;> rfl
        rw [this]
        simp at hle
        omega
    · -- the text starts with a non-whitespace character
      have hsp' : isSpace c = false := by
        cases hx : isSpace c
        · rfl
        · exact absurd hx hsp
      obtain ⟨rest, hshape⟩ :=
        reSplitWsF_head ((c :: cs).length + 1) (c :: cs) (Nat.succ_pos _)
      have htail : AllButLastNe rest := by
        have := reSplitWsF_tail_ne ((c :: cs).length + 1) (c :: cs) (Nat.lt_succ_self _)
        rw [hshape] at this
        exact this
      have hrs : reSplitWs (c :: cs)
          = (c :: cs).takeWhile (fun x => !isSpace x) :: rest := hshape
      have hp : (c :: cs).takeWhile (fun x => !isSpace x)
          = c :: cs.takeWhile (fun x => !isSpace x) := by
        rw [List.takeWhile_cons, if_pos (by simp [hsp'])]
      rw [chunk_text, hrs, chunkGo] at h
      by_cases hle :
          List.length ([] : List Char)
            + ((c :: cs).takeWhile (fun x => !isSpace x)).length ≤ L
      · rw [if_pos hle] at h
        have hmem := mem_of_headEq _ _ h
        have hpne : ([] : List Char) ++ (c :: cs).takeWhile (fun x => !isSpace x) ≠ [] := by
          rw [List.nil_append, hp]
          simp
        exact absurd rfl
          (chunkGo_all_ne L _ _ htail (fun heq => absurd heq hpne) [] hmem)
      · rw [firstRun]
        have : (fun x => isSpace x == isSpace c) = fun x => !isSpace x := by
          funext x
          rw [hsp']
          cases isSpace x <;> rfl
        rw [this]
        simp at hle
        omega

/-- C10: every chunk of `chunk_text` at position two or later is
nonempty; an empty chunk can occur only as the very first element, and
only when the first token of the text (its first maximal whitespace or
non-whitespace run) is longer than `L`. -/
theorem empty_chunk_only_first (text : List Char) (L : Nat) (hL : 1 ≤ L) :
    (∀ c ∈ (chunk_text text L).tail, c ≠ []) ∧
      ([] ∈ chunk_text text L →
        (chunk_text text L).head? = some [] ∧ L < (firstRun text).length) := by
  refine ⟨chunk_tail_ne text L, ?_⟩
  intro hmem
  have hhead : (chunk_text text L).head? = some [] := by
    cases hck : chunk_text text L with
    | nil => rw [hck] at hmem; simp at hmem
    | cons x xs =>
      rw [hck] at hmem
      rcases List.mem_cons.mp hmem with h1 | h2
      · subst h1
        simp [hck]
      · exfalso
        apply chunk_tail_ne text L [] _ rfl
        rw [hck, List.tail_cons]
        exact h2
  exact ⟨hhead, chunk_head_empty text L hhead⟩

theorem empty_chunk_only_first_witness :
    List.replicate 20 'x' ≠ [] ∧
      ((chunk_text (List.replicate 20 'x') 10).head? = some [] ∧
        10 < (firstRun (List.replicate 20 'x')).length) :=
  ⟨(empty_chunk_only_first (List.replicate 20 'x') 10 (by decide)).1
      (List.replicate 20 'x') (by decide),
    (empty_chunk_only_first (List.replicate 20 'x') 10 (by decide)).2 (by decide)⟩

theorem convertLoop_fail (env : Env) :
    ∀ (cs : List (List Char)) (k i : Nat) (combined : Option (List (List Char))),
      k < cs.length →
      (∀ j, j < k → adapterOk env (cs.getD j [])) →
      startsWithError (env.tts (cs.getD k [])) = true →
      convertLoop env cs i combined =
        { ret := ConvRet.retTtsError (env.tts (cs.getD k [])),
          calls := cs.take (k + 1),
          msgs := [Msg.chunkError (i + k + 1) (env.tts (cs.getD k []))],
          exported := none } := by
  intro cs
  induction cs with
  | nil =>
    intro k i combined hk
    simp at hk
  | cons ch cs ih =>
    intro k i combined hk hok hfail
    cases k with
    | zero =>
      rw [List.getD_cons_zero] at hfail
      rw [convertLoop, if_pos hfail]
      simp [List.getD_cons_zero]
    | succ k' =>
      have hok0 := hok 0 (Nat.succ_pos k')
      rw [List.getD_cons_zero] at hok0
      obtain ⟨he, hex, hdec⟩ := hok0
      obtain ⟨seg, hseg⟩ := Option.isSome_iff_exists.mp hdec
      have hk' : k' < cs.length := by
        rw [List.length_cons] at hk
        omega
      have hok' : ∀ j, j < k' → adapterOk env (cs.getD j []) := by
        intro j hj
        have := hok (j + 1) (by omega)
        rwa [List.getD_cons_succ] at this
      have hfail' : startsWithError (env.tts (cs.getD k' [])) = true := by
        rwa [List.getD_cons_succ] at hfail
      rw [convertLoop]
      rw [he]
      rw [if_neg (by simp)]
      rw [hex]
      rw [if_neg (by simp)]
      rw [hseg]
      show consCall ch (convertLoop env cs (i + 1) (appendSeg combined seg)) = _
      rw [ih k' (i + 1) (appendSeg combined seg) hk' hok' hfail']
      rw [consCall]
      have harith : i + 1 + k' + 1 = i + (k' + 1) + 1 := by omega
      simp [List.getD_cons_succ, List.take_succ_cons, harith]

/-- C3: for every text longer than the maximum chunk length and every
behaviour of the synthesis adapter, if the adapter calls for the first
`k` chunks fully succeed and the call for chunk `k + 1` (1-based; the
0-based index is `k`) returns a failure, then `convert_text_to_speech`
returns exactly that failure, shows the error message referencing chunk
`k + 1`, issues adapter calls only for chunks `1 .. k + 1` (none for any
later chunk), and exports no audio (no partial result). -/
theorem orchestrator_fail_fast (env : Env) (text : List Char) (k : Nat)
    (hlen : MAX_CHARS < text.length)
    (hk : k < (chunk_text text MAX_CHARS).length)
    (hok : ∀ j, j < k → adapterOk env ((chunk_text text MAX_CHARS).getD j []))
    (hfail : startsWithError
      (env.tts ((chunk_text text MAX_CHARS).getD k [])) = true) :
    convert_text_to_speech env text =
      { ret := ConvRet.retTtsError
          (env.tts ((chunk_text text MAX_CHARS).getD k [])),
        calls := (chunk_text text MAX_CHARS).take (k + 1),
        msgs := [Msg.chunkError (k + 1)
          (env.tts ((chunk_text text MAX_CHARS).getD k []))],
        exported := none } := by
  rw [convert_text_to_speech, if_neg (by omega)]
  have h0 := convertLoop_fail env (chunk_text text MAX_CHARS) k 0 none hk hok hfail
  have harith : 0 + k + 1 = k + 1 := by omega
  rw [harith] at h0
  exact h0

theorem orchestrator_fail_fast_witness :
    convert_text_to_speech
        { tts := fun _ => ('E' :: 'r' :: 'r' :: 'o' :: 'r' :: ':' :: []),
          fileExists := fun _ => true,
          decode := fun _ => none,
          exportName := [] }
        (List.replicate 4097 'a')
      = { ret := ConvRet.retTtsError ('E' :: 'r' :: 'r' :: 'o' :: 'r' :: ':' :: []),
          calls := [[]],
          msgs := [Msg.chunkError 1 ('E' :: 'r' :: 'r' :: 'o' :: 'r' :: ':' :: [])],
          exported := none } := by
  have hne : List.replicate 4097 'a' ≠ [] := by
    intro h
    have := List.length_replicate 4097 'a'
    rw [h] at this
    simp at this
  have hns : ∀ c ∈ List.replicate 4097 'a', isSpace c = false := by
    intro c hc
    rw [List.eq_of_mem_replicate hc]
    decide
  have hbig : MAX_CHARS < (List.replicate 4097 'a').length := by
    rw [List.length_replicate]
    decide
  have hchunks : chunk_text (List.replicate 4097 'a') MAX_CHARS
      = [[], List.replicate 4097 'a'] :=
    chunk_single_big _ _ hne hns hbig
  have hk : 0 < (chunk_text (List.replicate 4097 'a') MAX_CHARS).length := by
    rw [hchunks]
    decide
  have happ := orchestrator_fail_fast
    { tts := fun _ => ('E' :: 'r' :: 'r' :: 'o' :: 'r' :: ':' :: []),
      fileExists := fun _ => true,
      decode := fun _ => none,
      exportName := [] }
    (List.replicate 4097 'a') 0 hbig hk
    (fun j hj => absurd hj (Nat.not_lt_zero j))
    (by decide)
  rw [happ, hchunks]
  rfl
